import Mathlib

/-!
Verification of the FART stemmer (fartstemmer.py).

The stemmer is embedded shallowly: a word is a `List Char`, each Python
method becomes a Lean function with the same branch structure, and Python
slices `word[:-k]` become `chop word k`.  The one self-recursive stage
(stage 2, through its "alli" rule) is given a structural fuel argument
bounded by the word length, so that every definition is executable and
kernel-evaluable; `step2F_congr` shows the fuel is irrelevant once it is
at least the word length.
-/

namespace FartStemmer

/-- The vowel set of the classifier (`self.vowels` in `__init__`). -/
def vowels : List Char := ['a', 'e', 'i', 'o', 'u']

/-- `cons word i` is true iff position `i` classifies as a consonant
(`FartStemmer._cons`).  Out-of-range positions read a space character,
which the source never does (its callers keep indices in range). -/
def cons (word : List Char) : Nat → Bool
  | 0 =>
    if word.getD 0 ' ' ∈ vowels then false
    else if word.getD 0 ' ' = 'y' then true
    else true
  | i + 1 =>
    if word.getD (i + 1) ' ' ∈ vowels then false
    else if word.getD (i + 1) ' ' = 'y' then !(cons word i)
    else true

/-- The scanning loop of `FartStemmer._m`, with a fuel argument.
`phase = 0` is the initial loop skipping a leading consonant run,
`phase = 1` is the inner loop searching for the next consonant,
`phase = 2` is the inner loop searching for the next vowel.
Each iteration advances `i`, so fuel `j + 2` suffices from `i = 0`. -/
def mAux (word : List Char) (j : Nat) : Nat → Nat → Nat → Nat → Nat
  | 0, _, _, n => n
  | fuel + 1, phase, i, n =>
    if j < i then n
    else if phase = 0 then
      if cons word i then mAux word j fuel 0 (i + 1) n
      else mAux word j fuel 1 (i + 1) n
    else if phase = 1 then
      if cons word i then mAux word j fuel 2 (i + 1) (n + 1)
      else mAux word j fuel 1 (i + 1) n
    else
      if cons word i then mAux word j fuel 2 (i + 1) n
      else mAux word j fuel 1 (i + 1) n

/-- `m word j` counts the consonant sequences in `word[0..j]`
(`FartStemmer._m`). -/
def m (word : List Char) (j : Nat) : Nat := mAux word j (j + 2) 0 0 0

/-- Modelled from the spec: `transAt word p` holds when a vowel at
position `p` is immediately followed by a consonant at `p + 1`, i.e.
position `p` is a `VC` boundary of the classification sequence. -/
def transAt (word : List Char) (p : Nat) : Bool :=
  !(cons word p) && cons word (p + 1)

/-- Modelled from the spec: `countTrans word i k` counts the `VC`
boundaries at positions `p` with `i ≤ p < i + k`. -/
def countTrans (word : List Char) : Nat → Nat → Nat
  | _, 0 => 0
  | i, k + 1 => (if transAt word i then 1 else 0) + countTrans word (i + 1) k

/-- Modelled from the spec: the number of `VC` boundaries in the canonical
`[C](VC)^m[V]` decomposition of the prefix `word[0..j]`, i.e. the number
of positions `p < j` where a vowel is followed by a consonant. -/
def mSpec (word : List Char) (j : Nat) : Nat := countTrans word 0 j

/-- `vowelinstem stem` is true iff some position classifies as a vowel
(`FartStemmer._vowelinstem`). -/
def vowelinstem (stem : List Char) : Bool :=
  (List.range stem.length).any fun i => !(cons stem i)

/-- Python slice `word[:-k]`: the word without its last `k` characters. -/
def chop (word : List Char) (k : Nat) : List Char :=
  word.take (word.length - k)

/-- Python `word.endswith(sfx)`. -/
def ew (word sfx : List Char) : Bool := sfx.isSuffixOf word

/-- Python `word[-1]` (a space if the word is empty, which the source
never consults). -/
def lastC (word : List Char) : Char := word.getD (word.length - 1) ' '

/-- Python `word[-2]` (a space if out of range). -/
def sublast (word : List Char) : Char := word.getD (word.length - 2) ' '

/-- `doublec word` is true iff `word` ends with a double consonant
(`FartStemmer._doublec`). -/
def doublec (word : List Char) : Bool :=
  if word.length < 2 then false
  else if lastC word ≠ sublast word then false
  else cons word (word.length - 1)

/-- `cvc word i` (`FartStemmer._cvc`): positions `i-2, i-1, i` are
consonant, vowel, consonant (or `i = 1` with vowel, consonant), and the
final consonant is not `w`, `x` or `y`. -/
def cvc (word : List Char) (i : Nat) : Bool :=
  if i = 0 then false
  else if i = 1 then !(cons word 0) && cons word 1
  else if (!(cons word i) || cons word (i - 1) || !(cons word (i - 2))) = true then false
  else
    let ch := word.getD i ' '
    if ch = 'w' ∨ ch = 'x' ∨ ch = 'y' then false else true

/-- The plural-stripping phase at the top of `FartStemmer._step1ab`. -/
def step1abPlural (word : List Char) : List Char :=
  if lastC word = 's' then
    if ew word ['s', 's', 'e', 's'] = true then chop word 2
    else if ew word ['i', 'e', 's'] = true then
      if word.length = 4 then chop word 1 else chop word 2
    else if sublast word ≠ 's' then chop word 1
    else word
  else word

/-- The fix-up applied in `FartStemmer._step1ab` when `-ed` or `-ing`
was trimmed (`ed_or_ing_trimmed` true). -/
def fixTrimmed (word : List Char) : List Char :=
  if (ew word ['a', 't'] || ew word ['b', 'l'] || ew word ['i', 'z']) = true then
    word ++ ['e']
  else if doublec word = true then
    if lastC word = 'l' ∨ lastC word = 's' ∨ lastC word = 'z' then word
    else chop word 1
  else if m word (word.length - 1) = 1 ∧ cvc word (word.length - 1) = true then
    word ++ ['e']
  else word

/-- The `-ied`, `-eed`, `-ed`, `-ing` phase of `FartStemmer._step1ab`,
applied after the plural phase. -/
def step1abRest (word : List Char) : List Char :=
  if ew word ['i', 'e', 'd'] = true then
    if word.length = 4 then chop word 1 else chop word 2
  else if ew word ['e', 'e', 'd'] = true then
    if 0 < m word (word.length - 4) then chop word 1 else word
  else if ew word ['e', 'd'] = true ∧ vowelinstem (chop word 2) = true then
    fixTrimmed (chop word 2)
  else if ew word ['i', 'n', 'g'] = true ∧ vowelinstem (chop word 3) = true then
    fixTrimmed (chop word 3)
  else word

/-- `FartStemmer._step1ab`: plurals, then `-ed` and `-ing`. -/
def step1ab (word : List Char) : List Char :=
  step1abRest (step1abPlural word)

/-- `FartStemmer._step1c`: terminal `y` becomes `i` when preceded by a
consonant and the word is longer than 2 characters. -/
def step1c (word : List Char) : List Char :=
  if lastC word = 'y' ∧ 2 < word.length ∧ cons word (word.length - 2) = true then
    chop word 1 ++ ['i']
  else word

/-- `FartStemmer._step2` with a structural fuel argument (the source
recurses on a word shortened by two characters in the "alli" rule, so
fuel equal to the word length is always sufficient). -/
def step2F : Nat → List Char → List Char
  | 0, word => word
  | fuel + 1, word =>
    if word.length ≤ 1 then word
    else if sublast word = 'a' then
      if ew word ['a', 't', 'i', 'o', 'n', 'a', 'l'] = true then
        if 0 < m word (word.length - 8) then chop word 7 ++ ['a', 't', 'e'] else word
      else if ew word ['t', 'i', 'o', 'n', 'a', 'l'] = true then
        if 0 < m word (word.length - 7) then chop word 2 else word
      else word
    else if sublast word = 'c' then
      if ew word ['e', 'n', 'c', 'i'] = true then
        if 0 < m word (word.length - 5) then chop word 4 ++ ['e', 'n', 'c', 'e'] else word
      else if ew word ['a', 'n', 'c', 'i'] = true then
        if 0 < m word (word.length - 5) then chop word 4 ++ ['a', 'n', 'c', 'e'] else word
      else word
    else if sublast word = 'e' then
      if ew word ['i', 'z', 'e', 'r'] = true then
        if 0 < m word (word.length - 5) then chop word 1 else word
      else word
    else if sublast word = 'l' then
      if ew word ['b', 'l', 'i'] = true then
        if 0 < m word (word.length - 4) then chop word 3 ++ ['b', 'l', 'e'] else word
      else if ew word ['a', 'l', 'l', 'i'] = true then
        if 0 < m word (word.length - 5) then step2F fuel (chop word 2) else word
      else if ew word ['f', 'u', 'l', 'l', 'i'] = true then
        if m word (word.length - 6) ≠ 0 then chop word 2 else word
      else if ew word ['e', 'n', 't', 'l', 'i'] = true then
        if m word (word.length - 6) ≠ 0 then chop word 2 else word
      else if ew word ['e', 'l', 'i'] = true then
        if m word (word.length - 4) ≠ 0 then chop word 2 else word
      else if ew word ['o', 'u', 's', 'l', 'i'] = true then
        if m word (word.length - 6) ≠ 0 then chop word 2 else word
      else word
    else if sublast word = 'o' then
      if ew word ['i', 'z', 'a', 't', 'i', 'o', 'n'] = true then
        if m word (word.length - 8) ≠ 0 then chop word 7 ++ ['i', 'z', 'e'] else word
      else if ew word ['a', 't', 'i', 'o', 'n'] = true then
        if m word (word.length - 6) ≠ 0 then chop word 5 ++ ['a', 't', 'e'] else word
      else if ew word ['a', 't', 'o', 'r'] = true then
        if m word (word.length - 5) ≠ 0 then chop word 4 ++ ['a', 't', 'e'] else word
      else word
    else if sublast word = 's' then
      if ew word ['a', 'l', 'i', 's', 'm'] = true then
        if m word (word.length - 6) ≠ 0 then chop word 3 else word
      else if ew word ['n', 'e', 's', 's'] = true then
        if ew word ['i', 'v', 'e', 'n', 'e', 's', 's'] = true then
          if m word (word.length - 8) ≠ 0 then chop word 4 else word
        else if ew word ['f', 'u', 'l', 'n', 'e', 's', 's'] = true then
          if m word (word.length - 8) ≠ 0 then chop word 4 else word
        else if ew word ['o', 'u', 's', 'n', 'e', 's', 's'] = true then
          if m word (word.length - 8) ≠ 0 then chop word 4 else word
        else word
      else word
    else if sublast word = 't' then
      if ew word ['a', 'l', 'i', 't', 'i'] = true then
        if m word (word.length - 6) ≠ 0 then chop word 3 else word
      else if ew word ['i', 'v', 'i', 't', 'i'] = true then
        if m word (word.length - 6) ≠ 0 then chop word 5 ++ ['i', 'v', 'e'] else word
      else if ew word ['b', 'i', 'l', 'i', 't', 'i'] = true then
        if m word (word.length - 7) ≠ 0 then chop word 6 ++ ['b', 'l', 'e'] else word
      else word
    else if sublast word = 'g' then
      if ew word ['l', 'o', 'g', 'i'] = true then
        if m word (word.length - 4) ≠ 0 then chop word 1 else word
      else word
    else word

/-- `FartStemmer._step2`: double suffixes, dispatched on the
second-to-last character. -/
def step2 (word : List Char) : List Char := step2F word.length word

/-- `FartStemmer._step3`: `-ic-`, `-ful`, `-ness` and friends. -/
def step3 (word : List Char) : List Char :=
  if lastC word = 'e' then
    if ew word ['i', 'c', 'a', 't', 'e'] = true then
      if m word (word.length - 6) ≠ 0 then chop word 3 else word
    else if ew word ['a', 't', 'i', 'v', 'e'] = true then
      if m word (word.length - 6) ≠ 0 then chop word 5 else word
    else if ew word ['a', 'l', 'i', 'z', 'e'] = true then
      if m word (word.length - 6) ≠ 0 then chop word 3 else word
    else word
  else if lastC word = 'i' then
    if ew word ['i', 'c', 'i', 't', 'i'] = true then
      if m word (word.length - 6) ≠ 0 then chop word 3 else word
    else word
  else if lastC word = 'l' then
    if ew word ['i', 'c', 'a', 'l'] = true then
      if m word (word.length - 5) ≠ 0 then chop word 2 else word
    else if ew word ['f', 'u', 'l'] = true then
      if m word (word.length - 4) ≠ 0 then chop word 3 else word
    else word
  else if lastC word = 's' then
    if ew word ['n', 'e', 's', 's'] = true then
      if m word (word.length - 5) ≠ 0 then chop word 4 else word
    else word
  else word

/-- `FartStemmer._step4`: residual suffixes in context `m > 1`,
dispatched on the second-to-last character. -/
def step4 (word : List Char) : List Char :=
  if word.length ≤ 1 then word
  else if sublast word = 'a' then
    if ew word ['a', 'l'] = true then
      if 1 < m word (word.length - 3) then chop word 2 else word
    else word
  else if sublast word = 'c' then
    if ew word ['a', 'n', 'c', 'e'] = true then
      if 1 < m word (word.length - 5) then chop word 4 else word
    else if ew word ['e', 'n', 'c', 'e'] = true then
      if 1 < m word (word.length - 5) then chop word 4 else word
    else word
  else if sublast word = 'e' then
    if ew word ['e', 'r'] = true then
      if 1 < m word (word.length - 3) then chop word 2 else word
    else word
  else if sublast word = 'i' then
    if ew word ['i', 'c'] = true then
      if 1 < m word (word.length - 3) then chop word 2 else word
    else word
  else if sublast word = 'l' then
    if ew word ['a', 'b', 'l', 'e'] = true then
      if 1 < m word (word.length - 5) then chop word 4 else word
    else if ew word ['i', 'b', 'l', 'e'] = true then
      if 1 < m word (word.length - 5) then chop word 4 else word
    else word
  else if sublast word = 'n' then
    if ew word ['a', 'n', 't'] = true then
      if 1 < m word (word.length - 4) then chop word 3 else word
    else if ew word ['e', 'm', 'e', 'n', 't'] = true then
      if 1 < m word (word.length - 6) then chop word 5 else word
    else if ew word ['m', 'e', 'n', 't'] = true then
      if 1 < m word (word.length - 5) then chop word 4 else word
    else if ew word ['e', 'n', 't'] = true then
      if 1 < m word (word.length - 4) then chop word 3 else word
    else word
  else if sublast word = 'o' then
    if (ew word ['s', 'i', 'o', 'n'] || ew word ['t', 'i', 'o', 'n']) = true then
      if 1 < m word (word.length - 4) then chop word 3 else word
    else if ew word ['o', 'u'] = true then
      if 1 < m word (word.length - 3) then chop word 2 else word
    else word
  else if sublast word = 's' then
    if ew word ['i', 's', 'm'] = true then
      if 1 < m word (word.length - 4) then chop word 3 else word
    else word
  else if sublast word = 't' then
    if ew word ['a', 't', 'e'] = true then
      if 1 < m word (word.length - 4) then chop word 3 else word
    else if ew word ['i', 't', 'i'] = true then
      if 1 < m word (word.length - 4) then chop word 3 else word
    else word
  else if sublast word = 'u' then
    if ew word ['o', 'u', 's'] = true then
      if 1 < m word (word.length - 4) then chop word 3 else word
    else word
  else if sublast word = 'v' then
    if ew word ['i', 'v', 'e'] = true then
      if 1 < m word (word.length - 4) then chop word 3 else word
    else word
  else if sublast word = 'z' then
    if ew word ['i', 'z', 'e'] = true then
      if 1 < m word (word.length - 4) then chop word 3 else word
    else word
  else word

/-- The `-e` removal half of `FartStemmer._step5`. -/
def step5e (word : List Char) : List Char :=
  if lastC word = 'e' then
    if 1 < m word (word.length - 1) ∨
        (m word (word.length - 1) = 1 ∧ cvc word (word.length - 2) = false) then
      chop word 1
    else word
  else word

/-- The `-ll` undoubling half of `FartStemmer._step5`. -/
def step5ll (word : List Char) : List Char :=
  if ew word ['l', 'l'] = true ∧ 1 < m word (word.length - 1) then chop word 1
  else word

/-- `FartStemmer._step5`: final `-e` removal, then `-ll` undoubling. -/
def step5 (word : List Char) : List Char := step5ll (step5e word)

/-- The sixteen surface-to-stem pairs of the irregular-form table,
flattened from the `irregular_forms` dictionary of `__init__` in its
iteration order: surface form to stem. -/
def poolPairs : List (List Char × List Char) :=
  [("sky".toList, "sky".toList), ("skies".toList, "sky".toList),
   ("dying".toList, "die".toList), ("lying".toList, "lie".toList),
   ("tying".toList, "tie".toList), ("news".toList, "news".toList),
   ("innings".toList, "inning".toList), ("inning".toList, "inning".toList),
   ("outings".toList, "outing".toList), ("outing".toList, "outing".toList),
   ("cannings".toList, "canning".toList), ("canning".toList, "canning".toList),
   ("howe".toList, "howe".toList), ("proceed".toList, "proceed".toList),
   ("exceed".toList, "exceed".toList), ("succeed".toList, "succeed".toList)]

/-- The irregular-form table lookup (`word in self.pool` followed by
`self.pool[word]`), modelled as an association-list lookup; the sixteen
keys are pairwise distinct, so the order of entries is immaterial. -/
def poolLookup (word : List Char) : Option (List Char) :=
  poolPairs.lookup word

/-- `FartStemmer.stem_word` on a whole word: exception lookup, then the
short-word bypass, then the six pipeline stages. -/
def stemWord (word : List Char) : List Char :=
  match poolLookup word with
  | some s => s
  | none =>
    if word.length ≤ 2 then word
    else step5 (step4 (step3 (step2 (step1c (step1ab word)))))

/-- `FartStemmer.stem_word p i j` with an explicit range: the stem of the
slice `p[i : j+1]`. -/
def stemWordSlice (p : List Char) (i j : Nat) : List Char :=
  stemWord ((p.drop i).take (j + 1 - i))

/-- Python `word.lower()`, modelled characterwise. -/
def lowerW (word : List Char) : List Char := word.map Char.toLower

/-- `FartStemmer.fart`: stem the lowercased token and append the literal
suffix "fart" when the stem differs from the lowercased token. -/
def fart (word : List Char) : List Char :=
  let s := stemWordSlice (lowerW word) 0 (word.length - 1)
  if s ≠ lowerW word then s ++ "fart".toList else word

/-! ### Basic lemmas about the helpers -/

lemma chop_length (word : List Char) (k : Nat) :
    (chop word k).length = word.length - k := by
  simp [chop]

lemma ew_iff {word sfx : List Char} : ew word sfx = true ↔ sfx <:+ word := by
  simp [ew]

lemma ew_length {word sfx : List Char} (h : ew word sfx = true) :
    sfx.length ≤ word.length :=
  (ew_iff.mp h).length_le

/-! ### The measure function agrees with the boundary count -/

lemma mAux_zero (word : List Char) (j p i n : Nat) :
    mAux word j 0 p i n = n := rfl

lemma mAux_stop {word : List Char} {j i : Nat} (hij : j < i) (fuel p n : Nat) :
    mAux word j (fuel + 1) p i n = n := by
  simp [mAux, hij]

lemma mAux_succ_p0 {word : List Char} {j i : Nat} (hij : ¬ j < i) (fuel n : Nat) :
    mAux word j (fuel + 1) 0 i n =
      if cons word i then mAux word j fuel 0 (i + 1) n
      else mAux word j fuel 1 (i + 1) n := by
  simp [mAux, hij]

lemma mAux_succ_p1 {word : List Char} {j i : Nat} (hij : ¬ j < i) (fuel n : Nat) :
    mAux word j (fuel + 1) 1 i n =
      if cons word i then mAux word j fuel 2 (i + 1) (n + 1)
      else mAux word j fuel 1 (i + 1) n := by
  simp [mAux, hij]

lemma mAux_succ_p2 {word : List Char} {j i : Nat} (hij : ¬ j < i) (fuel n : Nat) :
    mAux word j (fuel + 1) 2 i n =
      if cons word i then mAux word j fuel 2 (i + 1) n
      else mAux word j fuel 1 (i + 1) n := by
  simp [mAux, hij]

lemma countTrans_head (word : List Char) {i j : Nat} (h : i < j) :
    countTrans word i (j - i) =
      (if transAt word i then 1 else 0) + countTrans word (i + 1) (j - (i + 1)) := by
  have e : j - i = (j - (i + 1)) + 1 := by omega
  rw [e, countTrans]

/-- The loop invariant of `_m`: in phase 0 the scan from `i` adds the
boundary count of positions `i ≤ p < j`; in phases 1 and 2 the position
`i - 1` has been read (as a vowel resp. consonant) and the scan adds the
boundary count of positions `i - 1 ≤ p < j`. -/
lemma mAux_eq (word : List Char) (j : Nat) :
    ∀ fuel i n, j + 2 ≤ fuel + i →
      (mAux word j fuel 0 i n = n + countTrans word i (j - i)) ∧
      (∀ k, i = k + 1 → cons word k = false →
        mAux word j fuel 1 i n = n + countTrans word k (j - k)) ∧
      (∀ k, i = k + 1 → cons word k = true →
        mAux word j fuel 2 i n = n + countTrans word k (j - k)) := by
  intro fuel
  induction fuel with
  | zero =>
    intro i n h
    refine ⟨?_, ?_, ?_⟩
    · have hji : j - i = 0 := by omega
      simp [mAux_zero, hji, countTrans]
    · intro k hk _
      have hjk : j - k = 0 := by omega
      simp [mAux_zero, hjk, countTrans]
    · intro k hk _
      have hjk : j - k = 0 := by omega
      simp [mAux_zero, hjk, countTrans]
  | succ fuel ih =>
    intro i n h
    by_cases hij : j < i
    · refine ⟨?_, ?_, ?_⟩
      · have hji : j - i = 0 := by omega
        simp [mAux_stop hij, hji, countTrans]
      · intro k hk _
        have hjk : j - k = 0 := by omega
        simp [mAux_stop hij, hjk, countTrans]
      · intro k hk _
        have hjk : j - k = 0 := by omega
        simp [mAux_stop hij, hjk, countTrans]
    · have hfuel : j + 2 ≤ fuel + (i + 1) := by omega
      refine ⟨?_, ?_, ?_⟩
      · rw [mAux_succ_p0 hij]
        by_cases hc : cons word i = true
        · rw [if_pos hc, (ih (i + 1) n hfuel).1]
          by_cases hij' : i < j
          · rw [countTrans_head word hij']
            have ht : transAt word i = false := by simp [transAt, hc]
            simp [ht]
          · have h1 : j - i = 0 := by omega
            have h2 : j - (i + 1) = 0 := by omega
            simp [h1, h2, countTrans]
        · rw [if_neg hc]
          have hc' : cons word i = false := by
            revert hc; cases cons word i <;> simp
          exact (ih (i + 1) n hfuel).2.1 i rfl hc'
      · intro k hk hck
        rw [mAux_succ_p1 hij]
        have hkj : k < j := by omega
        rw [countTrans_head word hkj]
        have hki : k + 1 = i := hk.symm
        by_cases hc : cons word i = true
        · rw [if_pos hc, (ih (i + 1) (n + 1) hfuel).2.2 i rfl hc]
          have ht : transAt word k = true := by
            simp only [transAt, hck, Bool.not_false, Bool.true_and, hki]
            exact hc
          rw [hki, ht]
          simp [Nat.add_assoc, Nat.add_comm 1]
        · rw [if_neg hc]
          have hc' : cons word i = false := by
            revert hc; cases cons word i <;> simp
          rw [(ih (i + 1) n hfuel).2.1 i rfl hc']
          have ht : transAt word k = false := by
            simp only [transAt, hck, Bool.not_false, Bool.true_and, hki]
            exact hc'
          rw [hki, ht]
          simp
      · intro k hk hck
        rw [mAux_succ_p2 hij]
        have hkj : k < j := by omega
        rw [countTrans_head word hkj]
        have hki : k + 1 = i := hk.symm
        have ht : transAt word k = false := by
          simp [transAt, hck]
        rw [hki, ht]
        by_cases hc : cons word i = true
        · rw [if_pos hc, (ih (i + 1) n hfuel).2.2 i rfl hc]
          simp
        · rw [if_neg hc]
          have hc' : cons word i = false := by
            revert hc; cases cons word i <;> simp
          rw [(ih (i + 1) n hfuel).2.1 i rfl hc']
          simp

/-- Unconditionally, `m` computes the boundary count of the prefix. -/
lemma m_eq_mSpec (word : List Char) (j : Nat) : m word j = mSpec word j := by
  have h := (mAux_eq word j (j + 2) 0 0 (by omega)).1
  simpa [m, mSpec] using h

/-! ### Irregular-form table lemmas -/

lemma poolLookup_mem {w s : List Char} (h : poolLookup w = some s) :
    (w, s) ∈ poolPairs := by
  unfold poolLookup at h
  obtain ⟨l₁, l₂, heq, -⟩ := List.lookup_eq_some_iff.mp h
  rw [heq]
  simp

lemma poolPairs_lookup : ∀ p ∈ poolPairs, poolLookup p.1 = some p.2 := by decide

lemma pool_key_length : ∀ p ∈ poolPairs, 3 ≤ p.1.length := by decide

lemma pool_val_length : ∀ p ∈ poolPairs, p.2.length ≤ p.1.length := by decide

lemma poolLookup_none_of_short {w : List Char} (h : w.length ≤ 2) :
    poolLookup w = none := by
  cases hp : poolLookup w with
  | none => rfl
  | some s =>
    exfalso
    have h3 : 3 ≤ w.length := pool_key_length _ (poolLookup_mem hp)
    omega

lemma stemWord_eq_pool {w s : List Char} (h : poolLookup w = some s) :
    stemWord w = s := by
  unfold stemWord
  rw [h]

lemma stemWord_eq_pipeline {w : List Char} (h : poolLookup w = none) :
    stemWord w =
      if w.length ≤ 2 then w
      else step5 (step4 (step3 (step2 (step1c (step1ab w))))) := by
  unfold stemWord
  rw [h]

/-! ### Length bounds for the pipeline stages -/

lemma ite_len_le {c : Prop} [Decidable c] {a b : List Char} {n : Nat}
    (ha : c → a.length ≤ n) (hb : ¬ c → b.length ≤ n) :
    (if c then a else b).length ≤ n := by
  by_cases h : c
  · rw [if_pos h]; exact ha h
  · rw [if_neg h]; exact hb h

lemma step1abPlural_length (word : List Char) :
    (step1abPlural word).length ≤ word.length := by
  unfold step1abPlural
  split_ifs <;>
    first
      | exact Nat.le_refl _
      | (rw [chop_length]; exact Nat.sub_le _ _)

lemma fixTrimmed_length (word : List Char) :
    (fixTrimmed word).length ≤ word.length + 1 := by
  unfold fixTrimmed
  split_ifs <;>
    (try simp only [List.length_append, List.length_cons, List.length_nil, chop_length]) <;>
    omega

lemma step1abRest_length (word : List Char) :
    (step1abRest word).length ≤ word.length := by
  unfold step1abRest
  split_ifs with h1 h2 h3 h4 h5 h6
  · rw [chop_length]; exact Nat.sub_le _ _
  · rw [chop_length]; exact Nat.sub_le _ _
  · rw [chop_length]; exact Nat.sub_le _ _
  · exact Nat.le_refl _
  · have h2le : (2 : Nat) ≤ word.length := by
      have := ew_length h5.1
      simpa using this
    have hf := fixTrimmed_length (chop word 2)
    rw [chop_length] at hf
    omega
  · have h3le : (3 : Nat) ≤ word.length := by
      have := ew_length h6.1
      simpa using this
    have hf := fixTrimmed_length (chop word 3)
    rw [chop_length] at hf
    omega
  · exact Nat.le_refl _

lemma step1ab_length (word : List Char) :
    (step1ab word).length ≤ word.length :=
  le_trans (step1abRest_length _) (step1abPlural_length _)

lemma step1c_length (word : List Char) :
    (step1c word).length ≤ word.length := by
  unfold step1c
  split_ifs with h
  · have h2 : 2 < word.length := h.2.1
    simp only [List.length_append, chop_length, List.length_cons, List.length_nil]
    omega
  · exact Nat.le_refl _

lemma step2F_length : ∀ fuel word, (step2F fuel word).length ≤ word.length := by
  intro fuel
  induction fuel with
  | zero => intro word; exact Nat.le_refl _
  | succ fuel ih =>
    intro word
    unfold step2F
    repeat'
      first
        | refine ite_len_le (fun _ => ?_) (fun _ => ?_)
        | exact Nat.le_refl _
        | (rw [chop_length]; exact Nat.sub_le _ _)
        | (exact le_trans (ih _) (by rw [chop_length]; exact Nat.sub_le _ _))
        | (rename_i hs hg
           have hl := ew_length hs
           simp only [List.length_cons, List.length_nil] at hl
           simp only [List.length_append, chop_length, List.length_cons, List.length_nil]
           omega)

lemma step2_length (word : List Char) : (step2 word).length ≤ word.length :=
  step2F_length _ _

lemma step3_length (word : List Char) : (step3 word).length ≤ word.length := by
  unfold step3
  repeat'
    first
      | refine ite_len_le (fun _ => ?_) (fun _ => ?_)
      | exact Nat.le_refl _
      | (rw [chop_length]; exact Nat.sub_le _ _)

lemma step4_length (word : List Char) : (step4 word).length ≤ word.length := by
  unfold step4
  repeat'
    first
      | refine ite_len_le (fun _ => ?_) (fun _ => ?_)
      | exact Nat.le_refl _
      | (rw [chop_length]; exact Nat.sub_le _ _)

lemma step5e_length (word : List Char) : (step5e word).length ≤ word.length := by
  unfold step5e
  split_ifs <;>
    first
      | exact Nat.le_refl _
      | (rw [chop_length]; exact Nat.sub_le _ _)

lemma step5ll_length (word : List Char) : (step5ll word).length ≤ word.length := by
  unfold step5ll
  split_ifs <;>
    first
      | exact Nat.le_refl _
      | (rw [chop_length]; exact Nat.sub_le _ _)

lemma step5_length (word : List Char) : (step5 word).length ≤ word.length :=
  le_trans (step5ll_length _) (step5e_length _)

/-- The stemmer never produces a longer word than its input. -/
lemma stemWord_length_le (word : List Char) :
    (stemWord word).length ≤ word.length := by
  cases hp : poolLookup word with
  | some s =>
    rw [stemWord_eq_pool hp]
    have := pool_val_length _ (poolLookup_mem hp)
    simpa using this
  | none =>
    rw [stemWord_eq_pipeline hp]
    split_ifs with h
    · exact Nat.le_refl _
    · calc (step5 (step4 (step3 (step2 (step1c (step1ab word)))))).length
          ≤ (step4 (step3 (step2 (step1c (step1ab word))))).length := step5_length _
        _ ≤ (step3 (step2 (step1c (step1ab word)))).length := step4_length _
        _ ≤ (step2 (step1c (step1ab word))).length := step3_length _
        _ ≤ (step1c (step1ab word)).length := step2_length _
        _ ≤ (step1ab word).length := step1c_length _
        _ ≤ word.length := step1ab_length _

/-! ### The fuel of stage 2 is irrelevant once it covers the word length -/

lemma ite_congr_branches {c : Prop} [Decidable c] {a b a' b' : List Char}
    (ha : c → a = a') (hb : ¬ c → b = b') :
    (if c then a else b) = (if c then a' else b') := by
  by_cases h : c
  · rw [if_pos h, if_pos h]; exact ha h
  · rw [if_neg h, if_neg h]; exact hb h

lemma step2F_congr : ∀ f g word, word.length ≤ f → word.length ≤ g →
    step2F f word = step2F g word := by
  intro f
  induction f with
  | zero =>
    intro g word hf _
    have hw : word = [] := List.length_eq_zero.mp (Nat.le_zero.mp hf)
    subst hw
    cases g with
    | zero => rfl
    | succ g => simp [step2F]
  | succ f ihf =>
    intro g word hf hg
    cases g with
    | zero =>
      have hw : word = [] := List.length_eq_zero.mp (Nat.le_zero.mp hg)
      subst hw
      simp [step2F]
    | succ g =>
      simp only [step2F]
      repeat'
        first
          | refine ite_congr_branches (fun _ => ?_) (fun _ => ?_)
          | rfl
          | (exact ihf g _ (by rw [chop_length]; omega) (by rw [chop_length]; omega))

/-! ### Suffix bookkeeping for the stage 2 "alli" rule -/

lemma getD_append_right' (t u : List Char) (k : Nat) :
    (t ++ u).getD (t.length + k) ' ' = u.getD k ' ' := by
  rw [List.getD_eq_getElem?_getD, List.getD_eq_getElem?_getD,
    List.getElem?_append_right (Nat.le_add_right t.length k), Nat.add_sub_cancel_left]

/-! ### The claims -/

/-- C1, counterexample: the word "y" has the letter `y` at position 0,
and the classifier assigns it Consonant (`cons` is true), not Vowel as
the claim states. -/
theorem cons_y_at_zero_consonant :
    "y".toList.getD 0 ' ' = 'y' ∧ ¬ (cons "y".toList 0 = false) := by
  decide

/-- C1 (amended): a `y` at position 0 classifies as Consonant; a `y` at a
position `i = k + 1` classifies as Vowel (`cons` is false) exactly when
position `k` classifies as Consonant. -/
theorem cons_y_classification (w : List Char) (i : Nat)
    (h : w.getD i ' ' = 'y') :
    (i = 0 → cons w i = true) ∧
    (∀ k, i = k + 1 → (cons w i = false ↔ cons w k = true)) := by
  constructor
  · rintro rfl
    rw [cons, h]
    decide
  · rintro k rfl
    rw [cons, h]
    show (!(cons w k)) = false ↔ cons w k = true
    simp

/-- C1, witness: the word "by" has `y` at position 1, and the amended
classification rule evaluates there. -/
theorem cons_y_classification_witness :
    "by".toList.getD 1 ' ' = 'y' ∧
    ((1 = 0 → cons "by".toList 1 = true) ∧
     (∀ k, 1 = k + 1 → (cons "by".toList 1 = false ↔ cons "by".toList k = true))) :=
  ⟨by decide, cons_y_classification "by".toList 1 (by decide)⟩

/-- C2: every hit of the irregular-form table is returned as the stem
with no pipeline processing, the table holds exactly the sixteen listed
surface-to-stem entries, and each of the sixteen entries is present. -/
theorem stem_irregular_precedence :
    (∀ w s, poolLookup w = some s → stemWord w = s ∧ (w, s) ∈ poolPairs) ∧
    (∀ p ∈ poolPairs, poolLookup p.1 = some p.2) := by
  constructor
  · intro w s h
    exact ⟨stemWord_eq_pool h, poolLookup_mem h⟩
  · exact poolPairs_lookup

/-- C2, witness: "skies" is in the table and stems to "sky". -/
theorem stem_irregular_precedence_witness :
    poolLookup "skies".toList = some "sky".toList ∧
    stemWord "skies".toList = "sky".toList :=
  ⟨by decide, (stem_irregular_precedence.1 "skies".toList "sky".toList (by decide)).1⟩

/-- C3: a word of length at most 2 (including the empty word) is returned
unchanged by the stemmer. -/
theorem stem_short_word (w : List Char) (h : w.length ≤ 2) : stemWord w = w := by
  rw [stemWord_eq_pipeline (poolLookup_none_of_short h), if_pos h]

/-- C3, witness: the empty word and a length-2 word are both returned
unchanged. -/
theorem stem_short_word_witness :
    (List.length ([] : List Char) ≤ 2 ∧ stemWord [] = []) ∧
    ("ab".toList.length ≤ 2 ∧ stemWord "ab".toList = "ab".toList) :=
  ⟨⟨by decide, stem_short_word [] (by decide)⟩,
   ⟨by decide, stem_short_word "ab".toList (by decide)⟩⟩

/-- C4, counterexample: the stemmer does not map "ties" to "ti". -/
theorem stem_ties_ne : ¬ (stemWord "ties".toList = "ti".toList) := by decide

/-- C4 (amended): `stem "ties" = "tie"` (the length-4 `ies` rule of stage
1ab drops only one character). -/
theorem stem_ties : stemWord "ties".toList = "tie".toList := by decide

/-- C5, counterexample: the stemmer does not map "agreed" to "agree". -/
theorem stem_agreed_ne : ¬ (stemWord "agreed".toList = "agree".toList) := by decide

/-- C5 (amended): `stem "agreed" = "agre"` (stage 1ab gives "agree" and
stage 5 then drops the final `e` since the measure is 1 and the word does
not end in a cvc pattern). -/
theorem stem_agreed : stemWord "agreed".toList = "agre".toList := by decide

/-- C6, counterexample: "formalli" ends in "alli" and its prefix has
positive measure, stage 2 recurses on the word shortened by two
characters, but that shortened word is "formal", which does not end in
"all". -/
theorem step2_alli_cex :
    ew "formalli".toList ['a', 'l', 'l', 'i'] = true ∧
    0 < m "formalli".toList ("formalli".toList.length - 5) ∧
    step2 "formalli".toList = step2 (chop "formalli".toList 2) ∧
    chop "formalli".toList 2 = "formal".toList ∧
    ew "formal".toList ['a', 'l', 'l'] = false := by
  decide

/-- C6 (amended): for a word ending in "alli" whose prefix before the
suffix has positive measure, stage 2 drops the final two characters "li",
so the shortened word ends in "al", and re-applies stage 2 to that
shortened word. -/
theorem step2_alli_recursion (w : List Char)
    (h : ew w ['a', 'l', 'l', 'i'] = true)
    (hm : 0 < m w (w.length - 5)) :
    step2 w = step2 (chop w 2) ∧ ew (chop w 2) ['a', 'l'] = true := by
  obtain ⟨t, ht⟩ := ew_iff.mp h
  subst ht
  have hlen4 : (t ++ ['a', 'l', 'l', 'i']).length = t.length + 3 + 1 := by
    simp
  have hsub : sublast (t ++ ['a', 'l', 'l', 'i']) = 'l' := by
    unfold sublast
    rw [hlen4]
    have e : t.length + 3 + 1 - 2 = t.length + 2 := by omega
    rw [e, getD_append_right']
    rfl
  have hchop : chop (t ++ ['a', 'l', 'l', 'i']) 2 = t ++ ['a', 'l'] := by
    unfold chop
    rw [hlen4]
    have e : t.length + 3 + 1 - 2 = t.length + 2 := by omega
    rw [e, List.take_append_eq_append_take,
      List.take_of_length_le (Nat.le_add_right _ _), Nat.add_sub_cancel_left]
    rfl
  have hbli : ¬ (ew (t ++ ['a', 'l', 'l', 'i']) ['b', 'l', 'i'] = true) := by
    intro hb
    obtain ⟨u, hu⟩ := ew_iff.mp hb
    have hul : u.length = t.length + 1 := by
      have hL := congrArg List.length hu
      simp at hL
      omega
    have h1 : (u ++ ['b', 'l', 'i']).getD (t.length + 1) ' ' = 'b' := by
      have e : t.length + 1 = u.length + 0 := by omega
      rw [e, getD_append_right']
      rfl
    have h2 : (t ++ ['a', 'l', 'l', 'i']).getD (t.length + 1) ' ' = 'l' := by
      rw [getD_append_right']
      rfl
    rw [hu, h2] at h1
    exact absurd h1 (by decide)
  have halli : ew (t ++ ['a', 'l', 'l', 'i']) ['a', 'l', 'l', 'i'] = true :=
    ew_iff.mpr ⟨t, rfl⟩
  have hguard : ¬ ((t ++ ['a', 'l', 'l', 'i']).length ≤ 1) := by
    rw [hlen4]; omega
  have hna : ¬ (sublast (t ++ ['a', 'l', 'l', 'i']) = 'a') := by simp [hsub]
  have hnc : ¬ (sublast (t ++ ['a', 'l', 'l', 'i']) = 'c') := by simp [hsub]
  have hne : ¬ (sublast (t ++ ['a', 'l', 'l', 'i']) = 'e') := by simp [hsub]
  constructor
  · unfold step2
    rw [hlen4]
    rw [step2F]
    rw [if_neg hguard, if_neg hna, if_neg hnc, if_neg hne, if_pos hsub,
      if_neg hbli, if_pos halli, if_pos hm]
    rw [hchop]
    have hfin : (t ++ ['a', 'l']).length ≤ t.length + 3 := by
      simp
    exact step2F_congr _ _ _ hfin (Nat.le_refl _)
  · rw [hchop]
    exact ew_iff.mpr ⟨t, rfl⟩

/-- C6, witness: the rule fires on "formalli". -/
theorem step2_alli_recursion_witness :
    (ew "formalli".toList ['a', 'l', 'l', 'i'] = true ∧
     0 < m "formalli".toList ("formalli".toList.length - 5)) ∧
    (step2 "formalli".toList = step2 (chop "formalli".toList 2) ∧
     ew (chop "formalli".toList 2) ['a', 'l'] = true) :=
  ⟨⟨by decide, by decide⟩,
   step2_alli_recursion "formalli".toList (by decide) (by decide)⟩

/-- C7: for a valid index `j`, the measure `m word j` is the number of
`VC` boundaries in the canonical decomposition of the prefix
`word[0..j]`. -/
theorem m_measures_vc_boundaries (word : List Char) (j : Nat)
    (_hj : j < word.length) : m word j = mSpec word j :=
  m_eq_mSpec word j

/-- C7, witness: evaluated on the word "tree" at its last index. -/
theorem m_measures_vc_boundaries_witness :
    3 < "tree".toList.length ∧ m "tree".toList 3 = mSpec "tree".toList 3 :=
  ⟨by decide, m_measures_vc_boundaries "tree".toList 3 (by decide)⟩

/-- C8: the stemmer never lengthens a word by more than one character. -/
theorem stem_length_bound (w : List Char) :
    (stemWord w).length ≤ w.length + 1 :=
  le_trans (stemWord_length_le w) (Nat.le_succ _)

/-- C9: the decorative wrapper lowercases the token, stems it, appends
the literal "fart" when the stem differs from the lowercased token, and
returns the original token unchanged otherwise. -/
theorem fart_contract (w : List Char) :
    fart w =
      if stemWord (lowerW w) = lowerW w then w
      else stemWord (lowerW w) ++ "fart".toList := by
  have hslice : stemWordSlice (lowerW w) 0 (w.length - 1) = stemWord (lowerW w) := by
    unfold stemWordSlice
    congr 1
    rw [List.drop_zero]
    apply List.take_of_length_le
    have hlen : (lowerW w).length = w.length := by simp [lowerW]
    rw [hlen]
    omega
  simp only [fart]
  rw [hslice]
  by_cases h : stemWord (lowerW w) = lowerW w
  · rw [if_neg (not_not_intro h), if_pos h]
  · rw [if_pos h, if_neg h]

/-- C10: the stemmer never produces an output longer than its input. -/
theorem stem_never_lengthens (w : List Char) :
    (stemWord w).length ≤ w.length :=
  stemWord_length_le w

end FartStemmer
